import Mathlib

/-!
Verification of the completion engine of `egui_code_editor`
(`src/completer.rs`): the embedded prefix trie (`mod trie`), the
static-dictionary builder `trie_from_syntax`, and the stateful
`Completer` (`handle_input` / `show`).

Words are modelled as `List Char` (the character sequence of a Rust
`&str`); machine `usize` indices are modelled as `Nat` (the code only
uses them as character indices, with saturating arithmetic that `Nat`
subtraction mirrors exactly).
-/

/-- A word: the character sequence of a Rust string slice. -/
abbrev Word := List Char

/-- `ROOT_CHAR` from `completer.rs` (the space character, code point 32). -/
def ROOT_CHAR : Char := Char.ofNat 32

/-- The trie of `completer.rs` (`mod trie`): a node holds the character it
represents (`root`), a terminal flag (`is_word`) and its child nodes
(`leaves`, an ordered vector). -/
inductive Trie where
  | mk (root : Char) (is_word : Bool) (leaves : List Trie)

/-- Field accessor: the character this node represents. -/
def Trie.root : Trie → Char
  | .mk r _ _ => r

/-- Field accessor: the terminal flag. -/
def Trie.is_word : Trie → Bool
  | .mk _ w _ => w

/-- Field accessor: the child nodes, in their stored order. -/
def Trie.leaves : Trie → List Trie
  | .mk _ _ ls => ls

@[simp] theorem Trie.root_mk (r : Char) (w : Bool) (ls : List Trie) :
    (Trie.mk r w ls).root = r := rfl

@[simp] theorem Trie.is_word_mk (r : Char) (w : Bool) (ls : List Trie) :
    (Trie.mk r w ls).is_word = w := rfl

@[simp] theorem Trie.leaves_mk (r : Char) (w : Bool) (ls : List Trie) :
    (Trie.mk r w ls).leaves = ls := rfl

/-- `Trie::new(root)`: a fresh node with no children and the flag unset. -/
def Trie.new (c : Char) : Trie := .mk c false []

/-- `Trie::default()`: root node carrying `ROOT_CHAR`. -/
def Trie.defaultT : Trie := .mk ROOT_CHAR false []

/-- `Trie::clear`: `self.leaves.clear()` — drops all children, keeps the
root character and the terminal flag. -/
def Trie.clearT (t : Trie) : Trie := .mk t.root t.is_word []

/-- The order `Ord for Trie` sorts by: comparison of the `root`
characters only. -/
def rootLe (a b : Trie) : Prop := a.root ≤ b.root

instance : DecidableRel rootLe := fun a b => inferInstanceAs (Decidable (a.root ≤ b.root))

instance : IsTotal Trie rootLe := ⟨fun a b => le_total a.root b.root⟩

instance : IsTrans Trie rootLe := ⟨fun _ _ _ h h' => le_trans h h'⟩

/-- `self.leaves.sort()`: Rust's stable sort under `Ord for Trie`, which
compares nodes by their `root` character only.  A stable sort is
extensionally unique (ascending by key, ties kept in input order), so the
structural insertion sort is the same function as Rust's merge sort. -/
def sortTries (ls : List Trie) : List Trie :=
  ls.insertionSort rootLe

/-- One step of `push_chars` on the child vector: Rust finds the first
child whose `root` equals `c` and recurses into it (`f`), otherwise it
appends a freshly built subtree (`fresh`) at the end. -/
def insertLeaf (c : Char) (f : Trie → Trie) (fresh : Trie) : List Trie → List Trie
  | [] => [fresh]
  | l :: rest => if l.root = c then f l :: rest else l :: insertLeaf c f fresh rest

/-- `Trie::push_chars`: consume the word character by character, creating
missing nodes; on the final node set `is_word` and sort the children
descending (`sort()` then `reverse()`). -/
def Trie.pushChars (t : Trie) : Word → Trie
  | [] => .mk t.root true (sortTries t.leaves).reverse
  | c :: cs =>
      .mk t.root t.is_word
        (insertLeaf c (fun l => l.pushChars cs) (Trie.pushChars (Trie.new c) cs) t.leaves)

/-- `Trie::push(word)`. -/
def Trie.push (t : Trie) (w : Word) : Trie := t.pushChars w

/-- Sequential insertion (`words.iter().for_each(|w| trie.push(w))`). -/
def Trie.pushAll (t : Trie) (ws : List Word) : Trie := ws.foldl Trie.push t

/-- `Trie::from_words`. -/
def Trie.fromWords (ws : List Word) : Trie := Trie.pushAll (.mk ROOT_CHAR false []) ws

mutual
/-- `Trie::words_recursive`: extend the accumulated path with this node's
character, emit it if terminal, then recurse into the children in their
stored order. -/
def Trie.wordsRec : Trie → Word → List Word
  | .mk r w ls, pre =>
      (if w then [pre ++ [r]] else []) ++ wordsRecList ls (pre ++ [r])
/-- The `for child in self.leaves` loop of `words_recursive`. -/
def wordsRecList : List Trie → Word → List Word
  | [], _ => []
  | l :: rest, pre => Trie.wordsRec l pre ++ wordsRecList rest pre
end

/-- `Trie::words`: traverse every child from the empty path, then reverse
the accumulated list. -/
def Trie.words (t : Trie) : List Word := (wordsRecList t.leaves []).reverse

/-- Reference predicate (derived from `push_chars`/`words_recursive`):
`hasWord t w` holds when spelling `w` downward from `t`'s children ends at
a node whose terminal flag is set (`hasWord t [] = t.is_word`). -/
def Trie.hasWord (t : Trie) : Word → Bool
  | [] => t.is_word
  | c :: cs => t.leaves.any (fun l => l.root == c && l.hasWord cs)

/-- `Trie::find_recursice`: consume one character; on a root match,
record this node when the input is exhausted, then search every child on a
clone of the remaining input (later finds overwrite `found`). -/
def Trie.findRec (t : Trie) : Word → Option Trie → Option Trie
  | [], found => found
  | c :: rest, found =>
      if t.root = c then
        t.leaves.foldl (fun acc l => l.findRec rest acc)
          (if rest = [] then some t else found)
      else found

/-- `Trie::find_by_prefix`: prepend `ROOT_CHAR` to the query and search
from the root with `found` initially `None`. -/
def Trie.findByPfx (t : Trie) (p : Word) : Option Trie :=
  t.findRec (ROOT_CHAR :: p) none

/-- `Trie::find_completions`: the words of the subtree at the query, or
`[]` when no node matches. -/
def Trie.findCompletions (t : Trie) (p : Word) : List Word :=
  ((t.findByPfx p).map Trie.words).getD []

-- Sanity evaluation checks (structural recursion must reduce).
example : (Trie.fromWords [['a','b'],['a','c']]).findCompletions ['a'] = [['c'],['b']] := by decide
example : (Trie.fromWords [['a','c'],['a','b']]).findCompletions ['a'] = [['b'],['c']] := by decide
example : (Trie.fromWords [['a','b']]).findCompletions [] = [['a','b']] := by decide
example : (Trie.fromWords [['a','b']]).words = [['a','b']] := by decide

/-! ## The syntax descriptor and the static dictionary -/

/-- Modelled from the spec: the Syntax descriptor (spec §3) — its
definition lives outside the provided sources (`Syntax` is imported from
the crate root in `completer.rs`).  Only the fields the completer reads
are modelled: the `keywords`/`types`/`special` word sets and the
`case_sensitive` flag. -/
structure SyntaxDescr where
  keywords : List Word
  types : List Word
  special : List Word
  case_sensitive : Bool

/-- `str::to_lowercase`, modelled character-wise with `Char.toLower`
(faithful on ASCII dictionaries; the claims do not depend on multi-char
Unicode lowercase expansions). -/
def toLowercase (w : Word) : Word := w.map Char.toLower

/-- `trie_from_syntax` of `completer.rs` (the builder the `Completer`
actually uses via `new_with_syntax`): push every keyword, type and
special word; when `case_sensitive` is false additionally push the
lowercased form of each. -/
def mkSyntaxTrie (sd : SyntaxDescr) : Trie :=
  let t := ((Trie.defaultT.pushAll sd.keywords).pushAll sd.types).pushAll sd.special
  if sd.case_sensitive then t
  else
    ((t.pushAll (sd.keywords.map toLowercase)).pushAll
        (sd.types.map toLowercase)).pushAll (sd.special.map toLowercase)

/-! ## The Completer session state -/

/-- The `Completer` struct.  `cursor` is the `CCursor.index` character
index (egui's `CCursor` equality compares only the index).  `pfx` is the
`prefix` field, `trie_static` the `trie_syntax` field of the source. -/
structure Completer where
  pfx : Word
  cursor : Nat
  ignore_cursor : Option Nat
  trie_static : Trie
  trie_user : Option Trie
  variant_id : Nat
  completions : List Word

/-- The four keys `handle_input` consumes, in its match order. -/
inductive KeyInput where
  | escape | arrowDown | arrowUp | tab

/-- Candidate assembly of `handle_input`: the static trie's completions
reversed, followed by the user trie's completions reversed. -/
def assembleCompletions (s : Completer) : List Word :=
  (s.trie_static.findCompletions s.pfx).reverse ++
    ((s.trie_user.map (fun t => t.findCompletions s.pfx)).getD []).reverse

/-- `Completer::handle_input`.  The egui context is modelled by the (at
most one) completion key consumed this frame; the `Event::Paste` pushed on
Tab is the second component of the result. -/
def handleInput (s : Completer) (k : Option KeyInput) : Completer × Option Word :=
  if s.pfx = [] then (s, none)
  else if s.ignore_cursor = some s.cursor then (s, none)
  else
    let cs := assembleCompletions s
    let s' : Completer := { s with completions := cs }
    if cs = [] then (s', none)
    else
      let last := cs.length - 1
      match k with
      | some .escape => ({ s' with ignore_cursor := some s'.cursor }, none)
      | some .arrowDown =>
          ({ s' with variant_id := if s'.variant_id = last then 0
                                   else min (s'.variant_id + 1) last }, none)
      | some .arrowUp =>
          ({ s' with variant_id := if s'.variant_id = 0 then last
                                   else s'.variant_id - 1 }, none)
      | some .tab => (s', some (cs.getD s'.variant_id []))
      | none => (s', none)

/-! ## `Completer::show` (the completion-session part) -/

/-- The primary/secondary character indices of the editor's cursor range
(`editor_output.state.cursor.char_range()`). -/
structure CursorRange where
  primary : Nat
  secondary : Nat

/-- Identifier-constituent characters: `c.is_alphanumeric() || c == '_'`
(`Char.isAlphanum` models the ASCII fragment of Rust's Unicode
`is_alphanumeric`). -/
def identChar (c : Char) : Bool := c.isAlphanum || c == '_'

/-- egui's `TextBuffer::char_range(start..stop)` at the external
interface: both endpoints are clamped to the text length, so the slice is
total for out-of-range indices. -/
def charRange (text : Word) (start stop : Nat) : Word :=
  (text.take stop).drop start

/-- `prefix.rsplit_once(|c| !(c.is_alphanumeric() || c == '_'))` projected
to the tail (`unwrap_or` the whole slice): everything after the last
non-identifier character, i.e. the maximal trailing identifier run. -/
def rsplitIdentTail (w : Word) : Word :=
  (w.reverse.takeWhile identChar).reverse

/-- The prefix computation of `Completer::show` (lines 280–300): the next
character must not be an identifier character (a missing character — the
cursor at or past the end — allows), or a forward selection must be
active; then slice from the previous word boundary (`word_start`, supplied
by egui's `ccursor_previous_word`) to the cursor and strip everything
before the last non-identifier character. -/
def extractPfx (text : Word) (range : CursorRange) (wordStart : Nat) : Word :=
  let nextCharAllows :=
    (match text.get? range.primary with
     | none => true
     | some c => !identChar c) || decide (range.secondary > range.primary)
  if nextCharAllows then rsplitIdentTail (charRange text wordStart range.primary)
  else []

/-- The `response.changed()` branch of `Completer::show`: clear the
dynamic dictionary and re-push every harvested identifier token. -/
def updateUserTrie (s : Completer) (changed : Bool) (harvested : List Word) : Completer :=
  if changed then
    match s.trie_user with
    | some tu => { s with trie_user := some (tu.clearT.pushAll harvested) }
    | none => s
  else s

/-- The state-machine part of `Completer::show`, as a pure transition.
Inputs besides the state: whether the text changed this frame, the
identifier words harvested by the tokenizer from the new text (the
tokenizer lives outside the provided sources), the galley text, the cursor
range (`None` when the editor reports no cursor), and the previous word
boundary `wordStart` computed by egui.  Returns the new state and whether
the completion popup is shown this frame. -/
def showUpdate (s : Completer) (changed : Bool) (harvested : List Word)
    (text : Word) (range : Option CursorRange) (wordStart : Nat) :
    Completer × Bool :=
  let s : Completer := updateUserTrie s changed harvested
  match range with
  | none => (s, false)
  | some range =>
    let cursor := range.primary
    -- cursor change: reset the session.
    let s : Completer :=
      if s.cursor ≠ cursor then
        { s with cursor := cursor, pfx := [], ignore_cursor := none, variant_id := 0 }
      else s
    if s.ignore_cursor = some s.cursor then
      (s, false)  -- request_focus + early return: popup suppressed
    else
      let s : Completer := { s with ignore_cursor := none }
      let s : Completer := { s with pfx := extractPfx text range wordStart }
      (s, !(s.pfx = [] || s.completions = []))

/-! ## Orders used to state the spec's ordering claims -/

/-- Lexicographic comparison of words by character, as Rust's `Ord` for
strings orders them (on ASCII, byte order and char order agree). -/
def lexLe : Word → Word → Bool
  | [], _ => true
  | _ :: _, [] => false
  | a :: as_, b :: bs => if a < b then true else if b < a then false else lexLe as_ bs

/-- A list of words is in ascending lexicographic order. -/
def ascendingB : List Word → Bool
  | [] => true
  | [_] => true
  | a :: b :: rest => lexLe a b && ascendingB (b :: rest)

/-! ## Well-formedness: distinct sibling characters

Every trie reachable through the module's API (`new`, `default`,
`push`, `from_words`, `clear`) keeps the sibling roots of every node
pairwise distinct: `push_chars` only appends a child after failing to
find one with the same character. -/

/-- Pairwise distinct `root` characters in a child vector. -/
def distinctRoots : List Trie → Bool
  | [] => true
  | l :: rest => rest.all (fun l2 => l2.root != l.root) && distinctRoots rest

mutual
/-- Well-formed trie: distinct sibling roots, recursively. -/
def Trie.wf : Trie → Bool
  | .mk _ _ ls => distinctRoots ls && wfList ls
/-- All tries of a list are well-formed. -/
def wfList : List Trie → Bool
  | [] => true
  | l :: rest => Trie.wf l && wfList rest
end

/-! ## Basic lemmas -/

@[simp] theorem root_pushChars (v : Word) (t : Trie) : (t.pushChars v).root = t.root := by
  cases v <;> cases t <;> rfl

@[simp] theorem root_new (c : Char) : (Trie.new c).root = c := rfl

@[simp] theorem hasWord_new (c : Char) (w : Word) : (Trie.new c).hasWord w = false := by
  cases w <;> rfl

@[simp] theorem hasWord_defaultT (w : Word) : Trie.defaultT.hasWord w = false := by
  cases w <;> rfl

@[simp] theorem root_pushAll (ws : List Word) : ∀ t : Trie, (t.pushAll ws).root = t.root := by
  induction ws with
  | nil => intro t; rfl
  | cons v vs ih =>
      intro t
      show (Trie.pushAll (t.push v) vs).root = t.root
      rw [ih]; exact root_pushChars v t

@[simp] theorem root_fromWords (ws : List Word) : (Trie.fromWords ws).root = ROOT_CHAR := by
  unfold Trie.fromWords; rw [root_pushAll]; rfl

theorem sortTries_perm (ls : List Trie) : List.Perm (sortTries ls) ls :=
  List.perm_insertionSort rootLe ls

theorem sortTries_reverse_perm (ls : List Trie) : List.Perm (sortTries ls).reverse ls :=
  (sortTries ls).reverse_perm.trans (sortTries_perm ls)

@[simp] theorem mem_sortTries {l : Trie} {ls : List Trie} :
    l ∈ sortTries ls ↔ l ∈ ls :=
  (sortTries_perm ls).mem_iff

@[simp] theorem mem_sortTries_reverse {l : Trie} {ls : List Trie} :
    l ∈ (sortTries ls).reverse ↔ l ∈ ls :=
  (sortTries_reverse_perm ls).mem_iff

/-! ## `push_chars` adds exactly the pushed word -/

theorem hasWord_pushChars : ∀ (v : Word) (t : Trie) (w : Word),
    (t.pushChars v).hasWord w = true ↔ (w = v ∨ t.hasWord w = true) := by
  intro v
  induction v with
  | nil =>
      intro t w
      cases t with | mk r b ls =>
      cases w with
      | nil => simp [Trie.pushChars, Trie.hasWord]
      | cons c cs =>
          simp [Trie.pushChars, Trie.hasWord, List.any_eq_true]
  | cons d ds ih =>
      intro t w
      cases t with | mk r b ls =>
      cases w with
      | nil => simp [Trie.pushChars, Trie.hasWord]
      | cons c cs =>
          have hfresh : ∀ w' : Word, ((Trie.new d).pushChars ds).hasWord w' = true ↔ w' = ds := by
            intro w'; rw [ih]; simp
          simp only [Trie.pushChars, Trie.hasWord, Trie.leaves_mk, List.cons.injEq]
          induction ls with
          | nil =>
              simp only [insertLeaf, List.any_cons, List.any_nil, Bool.or_false,
                Bool.and_eq_true, beq_iff_eq, root_pushChars, root_new]
              rw [hfresh]
              constructor
              · rintro ⟨rfl, rfl⟩; exact Or.inl ⟨rfl, rfl⟩
              · rintro (⟨rfl, rfl⟩ | h)
                · exact ⟨rfl, rfl⟩
                · simp at h
          | cons l rest ihls =>
              by_cases hl : l.root = d
              · simp only [insertLeaf, if_pos hl, List.any_cons, Bool.or_eq_true,
                  Bool.and_eq_true, beq_iff_eq, root_pushChars]
                rw [ih]
                rw [hl, @eq_comm _ d c]
                tauto
              · simp only [insertLeaf, if_neg hl, List.any_cons, Bool.or_eq_true]
                tauto

theorem hasWord_pushAll : ∀ (ws : List Word) (t : Trie) (w : Word),
    (t.pushAll ws).hasWord w = true ↔ (w ∈ ws ∨ t.hasWord w = true) := by
  intro ws
  induction ws with
  | nil => intro t w; simp [Trie.pushAll]
  | cons v vs ih =>
      intro t w
      show ((t.push v).pushAll vs).hasWord w = true ↔ _
      rw [ih, Trie.push, hasWord_pushChars]
      simp only [List.mem_cons]
      tauto

theorem hasWord_fromWords (ws : List Word) (w : Word) :
    (Trie.fromWords ws).hasWord w = true ↔ w ∈ ws := by
  unfold Trie.fromWords
  rw [hasWord_pushAll]
  have : (Trie.mk ROOT_CHAR false []).hasWord w = false := by cases w <;> rfl
  simp [this]

/-! ## The words of a trie are exactly the terminal paths -/

theorem sizeOf_leaf_lt {l t : Trie} (h : l ∈ t.leaves) : sizeOf l < sizeOf t := by
  cases t with | mk r b ls =>
  have h1 : sizeOf l < sizeOf ls := List.sizeOf_lt_of_mem h
  simp only [Trie.mk.sizeOf_spec]
  omega

theorem mem_wordsRecList {ls : List Trie} {pre w : Word} :
    w ∈ wordsRecList ls pre ↔ ∃ l ∈ ls, w ∈ l.wordsRec pre := by
  induction ls with
  | nil => simp [wordsRecList]
  | cons l rest ih => simp [wordsRecList, List.mem_append, ih]

theorem mem_wordsRec : ∀ (t : Trie) (pre w : Word),
    w ∈ t.wordsRec pre ↔ ∃ cs, w = pre ++ t.root :: cs ∧ t.hasWord cs = true := by
  have H : ∀ (n : Nat) (t : Trie), sizeOf t < n → ∀ (pre w : Word),
      w ∈ t.wordsRec pre ↔ ∃ cs, w = pre ++ t.root :: cs ∧ t.hasWord cs = true := by
    intro n
    induction n with
    | zero => intro t h; omega
    | succ n ihn =>
        intro t ht pre w
        cases t with | mk r b ls =>
        rw [Trie.wordsRec]
        simp only [List.mem_append, mem_wordsRecList, Trie.root_mk]
        constructor
        · rintro (hw | ⟨l, hl, hw⟩)
          · have hb : b = true := by
              by_contra hb
              simp [Bool.not_eq_true] at hb
              simp [hb] at hw
            refine ⟨[], ?_, ?_⟩
            · simp [hb] at hw
              simpa using hw
            · simpa [Trie.hasWord] using hb
          · have hlt : sizeOf l < n := by
              have := sizeOf_leaf_lt (t := Trie.mk r b ls) hl
              omega
            rw [ihn l hlt] at hw
            obtain ⟨cs, rfl, hcs⟩ := hw
            refine ⟨l.root :: cs, by simp, ?_⟩
            simp only [Trie.hasWord, Trie.leaves_mk, List.any_eq_true,
              Bool.and_eq_true, beq_iff_eq]
            exact ⟨l, hl, rfl, hcs⟩
        · rintro ⟨cs, rfl, hcs⟩
          cases cs with
          | nil =>
              left
              have hb : b = true := by simpa [Trie.hasWord] using hcs
              simp [hb]
          | cons c cs' =>
              right
              simp only [Trie.hasWord, Trie.leaves_mk, List.any_eq_true,
                Bool.and_eq_true, beq_iff_eq] at hcs
              obtain ⟨l, hl, hroot, hcs'⟩ := hcs
              have hlt : sizeOf l < n := by
                have := sizeOf_leaf_lt (t := Trie.mk r b ls) hl
                omega
              refine ⟨l, hl, ?_⟩
              rw [ihn l hlt]
              exact ⟨cs', by simp [hroot], hcs'⟩
  exact fun t => H (sizeOf t + 1) t (by omega)

theorem mem_words {t : Trie} {w : Word} :
    w ∈ t.words ↔ w ≠ [] ∧ t.hasWord w = true := by
  cases t with | mk r b ls =>
  simp only [Trie.words, List.mem_reverse, mem_wordsRecList, Trie.leaves_mk]
  constructor
  · rintro ⟨l, hl, hw⟩
    rw [mem_wordsRec] at hw
    obtain ⟨cs, rfl, hcs⟩ := hw
    refine ⟨by simp, ?_⟩
    simp only [List.nil_append, Trie.hasWord, Trie.leaves_mk, List.any_eq_true,
      Bool.and_eq_true, beq_iff_eq]
    exact ⟨l, hl, rfl, hcs⟩
  · rintro ⟨hne, hw⟩
    cases w with
    | nil => exact absurd rfl hne
    | cons c cs =>
        simp only [Trie.hasWord, Trie.leaves_mk, List.any_eq_true,
          Bool.and_eq_true, beq_iff_eq] at hw
        obtain ⟨l, hl, hroot, hcs⟩ := hw
        refine ⟨l, hl, ?_⟩
        rw [mem_wordsRec]
        exact ⟨cs, by simp [hroot], hcs⟩

theorem mem_words_fromWords {ws : List Word} {w : Word} :
    w ∈ (Trie.fromWords ws).words ↔ w ≠ [] ∧ w ∈ ws := by
  rw [mem_words, hasWord_fromWords]

/-! ## Push operations preserve well-formedness -/

theorem distinctRoots_iff : ∀ ls : List Trie,
    distinctRoots ls = true ↔ (ls.map Trie.root).Nodup := by
  intro ls
  induction ls with
  | nil => simp [distinctRoots]
  | cons l rest ih =>
      simp only [distinctRoots, Bool.and_eq_true, List.all_eq_true, bne_iff_ne,
        List.map_cons, List.nodup_cons, List.mem_map, ih]
      constructor
      · rintro ⟨h1, h2⟩
        refine ⟨?_, h2⟩
        rintro ⟨x, hx, hroot⟩
        exact h1 x hx hroot
      · rintro ⟨h1, h2⟩
        exact ⟨fun x hx hroot => h1 ⟨x, hx, hroot⟩, h2⟩

theorem wfList_iff : ∀ ls : List Trie, wfList ls = true ↔ ∀ l ∈ ls, l.wf = true := by
  intro ls
  induction ls with
  | nil => simp [wfList]
  | cons l rest ih =>
      rw [wfList]
      simp [Bool.and_eq_true, ih, List.forall_mem_cons]

theorem wf_mk_iff {r : Char} {b : Bool} {ls : List Trie} :
    (Trie.mk r b ls).wf = true ↔ distinctRoots ls = true ∧ wfList ls = true := by
  rw [Trie.wf, Bool.and_eq_true]

theorem map_root_insertLeaf (d : Char) (f : Trie → Trie) (fresh : Trie)
    (hroot : ∀ l, (f l).root = l.root) (hfr : fresh.root = d) :
    ∀ ls : List Trie, (insertLeaf d f fresh ls).map Trie.root =
      if d ∈ ls.map Trie.root then ls.map Trie.root else ls.map Trie.root ++ [d] := by
  intro ls
  induction ls with
  | nil => simp [insertLeaf, hfr]
  | cons l rest ih =>
      by_cases hl : l.root = d
      · simp [insertLeaf, hl, hroot l]
      · have hne : d ≠ l.root := fun h => hl h.symm
        simp only [insertLeaf, if_neg hl, List.map_cons, ih]
        by_cases hd : d ∈ rest.map Trie.root
        · simp [hd, hne]
        · simp [hd, hne]

theorem wfList_insertLeaf (d : Char) (f : Trie → Trie) (fresh : Trie)
    (hf : ∀ l, l.wf = true → (f l).wf = true) (hfresh : fresh.wf = true) :
    ∀ ls, wfList ls = true → wfList (insertLeaf d f fresh ls) = true := by
  intro ls
  induction ls with
  | nil =>
      intro _
      show wfList [fresh] = true
      rw [wfList, wfList]
      simp [hfresh]
  | cons l rest ih =>
      intro h
      rw [wfList, Bool.and_eq_true] at h
      by_cases hl : l.root = d
      · show wfList (if l.root = d then f l :: rest else _) = true
        rw [if_pos hl, wfList, Bool.and_eq_true]
        exact ⟨hf l h.1, h.2⟩
      · show wfList (if l.root = d then _ else l :: insertLeaf d f fresh rest) = true
        rw [if_neg hl, wfList, Bool.and_eq_true]
        exact ⟨h.1, ih h.2⟩

theorem wf_new (c : Char) : (Trie.new c).wf = true := by
  rw [Trie.new, Trie.wf]; rfl

theorem wf_pushChars : ∀ (v : Word) (t : Trie), t.wf = true → (t.pushChars v).wf = true := by
  intro v
  induction v with
  | nil =>
      intro t h
      cases t with | mk r b ls =>
      rw [wf_mk_iff] at h
      rw [Trie.pushChars, wf_mk_iff]
      constructor
      · rw [distinctRoots_iff] at h ⊢
        exact ((sortTries_reverse_perm ls).map Trie.root).nodup_iff.mpr h.1
      · rw [wfList_iff] at h ⊢
        intro l hl
        exact h.2 l (mem_sortTries_reverse.mp hl)
  | cons d ds ih =>
      intro t h
      cases t with | mk r b ls =>
      rw [wf_mk_iff] at h
      rw [Trie.pushChars, wf_mk_iff]
      simp only [Trie.leaves_mk]
      constructor
      · rw [distinctRoots_iff] at h ⊢
        rw [map_root_insertLeaf d _ _ (fun l => root_pushChars ds l) (by simp) ls]
        by_cases hd : d ∈ ls.map Trie.root
        · rw [if_pos hd]; exact h.1
        · rw [if_neg hd]
          simp [List.nodup_append, h.1, hd]
      · exact wfList_insertLeaf d _ _ (fun l hl => ih l hl) (ih _ (wf_new d)) ls h.2

theorem wf_pushAll : ∀ (ws : List Word) (t : Trie), t.wf = true → (t.pushAll ws).wf = true := by
  intro ws
  induction ws with
  | nil => intro t h; exact h
  | cons v vs ih =>
      intro t h
      exact ih (t.push v) (wf_pushChars v t h)

theorem wf_defaultT : Trie.defaultT.wf = true := by
  rw [Trie.defaultT, Trie.wf]; rfl

theorem wf_fromWords (ws : List Word) : (Trie.fromWords ws).wf = true := by
  unfold Trie.fromWords
  apply wf_pushAll
  rw [Trie.wf]; rfl

theorem wf_mkSyntaxTrie (sd : SyntaxDescr) : (mkSyntaxTrie sd).wf = true := by
  cases hcs : sd.case_sensitive <;> simp only [mkSyntaxTrie, hcs] <;>
    simp only [Bool.false_eq_true, if_false, if_true] <;>
    repeat (first | exact wf_defaultT | apply wf_pushAll)

theorem root_mkSyntaxTrie (sd : SyntaxDescr) : (mkSyntaxTrie sd).root = ROOT_CHAR := by
  cases hcs : sd.case_sensitive <;> simp [mkSyntaxTrie, hcs, Trie.defaultT]

/-! ## `find_by_prefix` finds the unique node spelling the query

`find_recursice` threads `found` through every child and lets later
matches overwrite it; on a well-formed trie sibling roots are distinct, so
at most one path spells the query and the search agrees with the
straightforward walk `descend`. -/

/-- The straightforward navigation: follow the (first) child carrying each
query character in turn. -/
def Trie.descend (t : Trie) : Word → Option Trie
  | [] => some t
  | c :: cs =>
      match t.leaves.find? (fun l => l.root == c) with
      | some l => l.descend cs
      | none => none

theorem findRec_nomatch {t : Trie} {c : Char} (h : ¬t.root = c) (rest : Word)
    (found : Option Trie) : t.findRec (c :: rest) found = found := by
  rw [Trie.findRec, if_neg h]

theorem foldl_findRec_nil (ls : List Trie) (acc : Option Trie) :
    ls.foldl (fun a l => l.findRec [] a) acc = acc := by
  induction ls with
  | nil => rfl
  | cons l rest ih => rw [List.foldl_cons]; exact ih

theorem foldl_findRec_nomatch {d : Char} (rest : Word) :
    ∀ (ls : List Trie) (acc : Option Trie), (∀ l ∈ ls, ¬l.root = d) →
      ls.foldl (fun a l => l.findRec (d :: rest) a) acc = acc := by
  intro ls
  induction ls with
  | nil => intro acc _; rfl
  | cons l rest' ih =>
      intro acc h
      rw [List.foldl_cons, findRec_nomatch (h l (by simp)) rest acc]
      exact ih acc (fun l' hl' => h l' (by simp [hl']))

theorem find?_unique_root : ∀ {ls : List Trie} {d : Char} {l0 : Trie},
    distinctRoots ls = true → ls.find? (fun l => l.root == d) = some l0 →
    ∀ l ∈ ls, l.root = d → l = l0 := by
  intro ls
  induction ls with
  | nil => intro d l0 _ h; cases h
  | cons a rest ih =>
      intro d l0 hdr hfind l hl hroot
      rw [distinctRoots, Bool.and_eq_true] at hdr
      by_cases ha : a.root = d
      · rw [List.find?_cons_of_pos _ (by simp [ha])] at hfind
        cases hfind
        rcases List.mem_cons.mp hl with rfl | hl'
        · rfl
        · exfalso
          have h2 := (List.all_eq_true.mp hdr.1) l hl'
          rw [bne_iff_ne] at h2
          exact h2 (hroot.trans ha.symm)
      · rw [List.find?_cons_of_neg _ (by simp [ha])] at hfind
        rcases List.mem_cons.mp hl with rfl | hl'
        · exact absurd hroot ha
        · exact ih hdr.2 hfind l hl' hroot

theorem findRec_eq_descend : ∀ (rest : Word) (t : Trie) (c : Char) (found : Option Trie),
    t.wf = true → t.root = c →
    t.findRec (c :: rest) found = (t.descend rest).or found := by
  intro rest
  induction rest with
  | nil =>
      intro t c found _ hr
      rw [Trie.findRec, if_pos hr, if_pos rfl, Trie.descend, foldl_findRec_nil]
      rfl
  | cons d rest' ih =>
      intro t c found hwf hr
      cases t with | mk r b ls =>
      rw [wf_mk_iff] at hwf
      rw [Trie.findRec, if_pos hr, if_neg (by simp), Trie.descend]
      simp only [Trie.leaves_mk]
      -- compute the fold over the children from the (unique) matching child
      obtain ⟨hdr, hwl⟩ := hwf
      clear hr
      induction ls with
      | nil => rfl
      | cons l rest'' ihls =>
          rw [distinctRoots, Bool.and_eq_true] at hdr
          rw [wfList, Bool.and_eq_true] at hwl
          by_cases hl : l.root = d
          · rw [List.foldl_cons, ih l d found hwl.1 hl,
              List.find?_cons_of_pos _ (by simp [hl])]
            have hno : ∀ l' ∈ rest'', ¬l'.root = d := by
              intro l' hl'
              have h2 := (List.all_eq_true.mp hdr.1) l' hl'
              rw [bne_iff_ne] at h2
              rw [hl] at h2
              exact h2
            rw [foldl_findRec_nomatch rest' rest'' _ hno]
          · rw [List.foldl_cons, findRec_nomatch hl rest' found,
              List.find?_cons_of_neg _ (by simp [hl])]
            exact ihls hdr.2 hwl.2

theorem findByPfx_eq_descend {t : Trie} (p : Word) (hwf : t.wf = true)
    (hr : t.root = ROOT_CHAR) : t.findByPfx p = t.descend p := by
  rw [Trie.findByPfx, findRec_eq_descend p t ROOT_CHAR none hwf hr]
  cases t.descend p <;> rfl

theorem hasWord_iff_descend : ∀ (p : Word) (t : Trie) (c : Word), t.wf = true →
    (t.hasWord (p ++ c) = true ↔ ∃ s, t.descend p = some s ∧ s.hasWord c = true) := by
  intro p
  induction p with
  | nil => intro t c _; simp [Trie.descend]
  | cons d p' ih =>
      intro t c hwf
      cases t with | mk r b ls =>
      rw [wf_mk_iff] at hwf
      simp only [List.cons_append, Trie.hasWord, Trie.leaves_mk, Trie.descend]
      cases hfind : ls.find? (fun l => l.root == d) with
      | none =>
          have hno : ∀ l ∈ ls, ¬(l.root = d) := by
            intro l hl
            have := List.find?_eq_none.mp hfind l hl
            simpa using this
          simp only [List.any_eq_true, Bool.and_eq_true, beq_iff_eq]
          constructor
          · rintro ⟨l, hl, hroot, _⟩; exact absurd hroot (hno l hl)
          · rintro ⟨s, hs, _⟩; cases hs
      | some l0 =>
          have hl0mem : l0 ∈ ls := List.mem_of_find?_eq_some hfind
          have hl0root : l0.root = d := by
            have := List.find?_some hfind
            simpa using this
          have hl0wf : l0.wf = true := (wfList_iff ls).mp hwf.2 l0 hl0mem
          simp only [List.any_eq_true, Bool.and_eq_true, beq_iff_eq]
          constructor
          · rintro ⟨l, hl, hroot, hw⟩
            have hll0 : l = l0 := find?_unique_root hwf.1 hfind l hl hroot
            rw [hll0] at hw
            exact (ih l0 c hl0wf).mp hw
          · intro hs
            exact ⟨l0, hl0mem, hl0root, (ih l0 c hl0wf).mpr hs⟩

theorem mem_findCompletions {t : Trie} {p c : Word} (hwf : t.wf = true)
    (hr : t.root = ROOT_CHAR) :
    c ∈ t.findCompletions p ↔ c ≠ [] ∧ t.hasWord (p ++ c) = true := by
  rw [Trie.findCompletions, findByPfx_eq_descend p hwf hr,
    hasWord_iff_descend p t c hwf]
  cases h : t.descend p with
  | none => simp
  | some s => simp [mem_words]

theorem mem_findCompletions_fromWords {ws : List Word} {p c : Word} :
    c ∈ (Trie.fromWords ws).findCompletions p ↔ c ≠ [] ∧ (p ++ c) ∈ ws := by
  rw [mem_findCompletions (wf_fromWords ws) (root_fromWords ws), hasWord_fromWords]

/-! ## Idempotence of `push` -/

/-- Strict version of the sibling order: only distinct root characters. -/
def rootLt (a b : Trie) : Prop := a.root < b.root

instance : IsAntisymm Trie rootLt := ⟨fun _ _ h h' => absurd h' (lt_asymm h)⟩

theorem pairwise_rootLt {L : List Trie} (hs : L.Pairwise rootLe)
    (hnd : (L.map Trie.root).Nodup) : L.Pairwise rootLt := by
  rw [List.Nodup, List.pairwise_map] at hnd
  exact (hs.and hnd).imp (fun h => lt_of_le_of_ne h.1 h.2)

theorem sortTries_sorted (ls : List Trie) : (sortTries ls).Pairwise rootLe :=
  List.sorted_insertionSort rootLe ls

/-- Re-sorting the reversed sorted list gives the sorted list back, as
long as the sibling roots are pairwise distinct. -/
theorem sortTries_resort {ls : List Trie} (h : (ls.map Trie.root).Nodup) :
    sortTries (sortTries ls).reverse = sortTries ls := by
  have hperm : List.Perm (sortTries (sortTries ls).reverse) (sortTries ls) :=
    (sortTries_perm _).trans (sortTries_reverse_perm ls) |>.trans (sortTries_perm ls).symm
  have hnd1 : ((sortTries ls).map Trie.root).Nodup :=
    (((sortTries_perm ls).map Trie.root).nodup_iff).mpr h
  have hnd2 : ((sortTries (sortTries ls).reverse).map Trie.root).Nodup :=
    ((hperm.map Trie.root).nodup_iff).mpr hnd1
  exact List.eq_of_perm_of_sorted hperm
    (pairwise_rootLt (sortTries_sorted _) hnd2)
    (pairwise_rootLt (sortTries_sorted _) hnd1)

theorem insertLeaf_idem (c : Char) (f : Trie → Trie) (fresh : Trie)
    (hroot : ∀ l, (f l).root = l.root) (hfr : fresh.root = c) (hff : f fresh = fresh) :
    ∀ ls : List Trie, (∀ l ∈ ls, f (f l) = f l) →
      insertLeaf c f fresh (insertLeaf c f fresh ls) = insertLeaf c f fresh ls := by
  intro ls
  induction ls with
  | nil =>
      intro _
      show insertLeaf c f fresh [fresh] = [fresh]
      rw [insertLeaf, if_pos hfr, hff]
  | cons l rest ih =>
      intro h
      by_cases hl : l.root = c
      · rw [insertLeaf, if_pos hl, insertLeaf, if_pos (by rw [hroot l]; exact hl),
          h l (by simp)]
      · rw [insertLeaf, if_neg hl, insertLeaf, if_neg hl,
          ih (fun l' hl' => h l' (by simp [hl']))]

/-! ## Field lemmas for the show-update -/

@[simp] theorem updateUserTrie_pfx (s : Completer) (c : Bool) (h : List Word) :
    (updateUserTrie s c h).pfx = s.pfx := by
  unfold updateUserTrie; split
  · split <;> rfl
  · rfl

@[simp] theorem updateUserTrie_cursor (s : Completer) (c : Bool) (h : List Word) :
    (updateUserTrie s c h).cursor = s.cursor := by
  unfold updateUserTrie; split
  · split <;> rfl
  · rfl

@[simp] theorem updateUserTrie_ignore (s : Completer) (c : Bool) (h : List Word) :
    (updateUserTrie s c h).ignore_cursor = s.ignore_cursor := by
  unfold updateUserTrie; split
  · split <;> rfl
  · rfl

@[simp] theorem updateUserTrie_variant (s : Completer) (c : Bool) (h : List Word) :
    (updateUserTrie s c h).variant_id = s.variant_id := by
  unfold updateUserTrie; split
  · split <;> rfl
  · rfl

@[simp] theorem updateUserTrie_completions (s : Completer) (c : Bool) (h : List Word) :
    (updateUserTrie s c h).completions = s.completions := by
  unfold updateUserTrie; split
  · split <;> rfl
  · rfl

theorem pushChars_idem : ∀ (w : Word) (t : Trie), t.wf = true →
    (t.pushChars w).pushChars w = t.pushChars w := by
  intro w
  induction w with
  | nil =>
      intro t h
      cases t with | mk r b ls =>
      rw [wf_mk_iff, distinctRoots_iff] at h
      rw [Trie.pushChars, Trie.pushChars]
      simp only [Trie.leaves_mk, Trie.root_mk]
      rw [sortTries_resort h.1]
  | cons d ds ih =>
      intro t h
      cases t with | mk r b ls =>
      rw [wf_mk_iff, wfList_iff] at h
      rw [Trie.pushChars, Trie.pushChars]
      simp only [Trie.leaves_mk, Trie.root_mk, Trie.is_word_mk]
      rw [insertLeaf_idem d _ _ (fun l => root_pushChars ds l) (by simp)
        (ih _ (wf_new d)) ls (fun l hl => ih l (h.2 l hl))]

/-! ## Remaining session lemmas -/

theorem handleInput_assembles (s : Completer) (k : Option KeyInput)
    (h1 : s.pfx ≠ []) (h2 : s.ignore_cursor ≠ some s.cursor) :
    (handleInput s k).1.completions = assembleCompletions s := by
  simp only [handleInput, if_neg h1, if_neg h2]
  by_cases hcs : assembleCompletions s = []
  · rw [if_pos hcs]
  · rw [if_neg hcs]
    cases k with
    | none => rfl
    | some kk => cases kk <;> rfl

/-! # The claims -/

/-- **C1** (counterexample): `find_completions` is sensitive to insertion
order, its output is not in ascending lexicographic order, and it returns
suffixes rather than the inserted words themselves.  With `["ab","ac"]`
inserted in that order, querying `"a"` yields `["c","b"]`. -/
theorem findCompletions_order_cex :
    (Trie.fromWords [['a','b'],['a','c']]).findCompletions ['a'] ≠
      (Trie.fromWords [['a','c'],['a','b']]).findCompletions ['a'] ∧
    ascendingB ((Trie.fromWords [['a','b'],['a','c']]).findCompletions ['a']) = false ∧
    ['a','b'] ∉ (Trie.fromWords [['a','b'],['a','c']]).findCompletions ['a'] := by
  decide

/-- **C1** (amended): for every trie built by pushing a word list and
every prefix, `find_completions(p)` returns, as a set, exactly the
non-empty suffixes `c` such that `p ++ c` is an inserted word; the
sequence's order depends on the insertion history. -/
theorem findCompletions_exactly_suffix_set (ws : List Word) (p c : Word) :
    c ∈ (Trie.fromWords ws).findCompletions p ↔ (c ≠ [] ∧ (p ++ c) ∈ ws) :=
  mem_findCompletions_fromWords

/-- **C2** (counterexample): on a trie holding the single word `"a"`, the
empty-prefix query returns every stored word, not the empty sequence. -/
theorem findCompletions_empty_pfx_cex :
    (Trie.fromWords [['a']]).findCompletions [] = [['a']] ∧
    (Trie.fromWords [['a']]).findCompletions [] ≠ [] := by
  decide

/-- **C2** (amended): `find_completions("")` locates the root node and
returns the trie's entire word list; the no-candidates-on-empty-prefix
convention is enforced one level up, by `Completer::handle_input`
returning before querying whenever its stored prefix is empty. -/
theorem findCompletions_empty_pfx_behavior :
    (∀ t : Trie, t.root = ROOT_CHAR → t.findCompletions [] = t.words) ∧
    (∀ (s : Completer) (k : Option KeyInput), s.pfx = [] → handleInput s k = (s, none)) := by
  constructor
  · intro t hr
    rw [Trie.findCompletions, Trie.findByPfx, Trie.findRec, if_pos hr, if_pos rfl,
      foldl_findRec_nil]
    rfl
  · intro s k h
    rw [handleInput, if_pos h]

theorem findCompletions_empty_pfx_behavior_witness :
    (Trie.fromWords [['a']]).findCompletions [] = (Trie.fromWords [['a']]).words ∧
    handleInput ⟨[], 0, none, Trie.defaultT, none, 0, []⟩ none =
      (⟨[], 0, none, Trie.defaultT, none, 0, []⟩, none) :=
  ⟨findCompletions_empty_pfx_behavior.1 _ (by decide),
   findCompletions_empty_pfx_behavior.2 _ none rfl⟩

/-- **C3**: `push` is idempotent on every well-formed trie (every trie
reachable through the module's API is well-formed): pushing the same word
twice produces the identical trie, so every observation — including the
order `find_completions` later reports — is unchanged. -/
theorem push_idem (t : Trie) (w : Word) (h : t.wf = true) :
    (t.push w).push w = t.push w :=
  pushChars_idem w t h

theorem push_idem_witness :
    (Trie.fromWords [['a','b']]).wf = true ∧
    ((Trie.fromWords [['a','b']]).push ['a','c']).push ['a','c'] =
      (Trie.fromWords [['a','b']]).push ['a','c'] :=
  ⟨by decide, push_idem _ _ (by decide)⟩

/-- **C4**: the static dictionary built by `trie_from_syntax` indexes,
when `case_sensitive` is false, exactly the original and lowercased forms
of the keyword/type/special words, each reachable by any prefix query;
with `case_sensitive = true` exactly the original forms. -/
theorem mkSyntaxTrie_indexes (sd : SyntaxDescr) (p c : Word) :
    (sd.case_sensitive = true →
      (c ∈ (mkSyntaxTrie sd).findCompletions p ↔
        c ≠ [] ∧ (p ++ c) ∈ sd.keywords ++ sd.types ++ sd.special)) ∧
    (sd.case_sensitive = false →
      (c ∈ (mkSyntaxTrie sd).findCompletions p ↔
        c ≠ [] ∧ ((p ++ c) ∈ sd.keywords ++ sd.types ++ sd.special ∨
          (p ++ c) ∈ (sd.keywords ++ sd.types ++ sd.special).map toLowercase))) := by
  constructor
  · intro hcs
    rw [mem_findCompletions (wf_mkSyntaxTrie sd) (root_mkSyntaxTrie sd)]
    simp only [mkSyntaxTrie, hcs, if_true]
    rw [hasWord_pushAll, hasWord_pushAll, hasWord_pushAll]
    simp only [hasWord_defaultT, Bool.false_eq_true, or_false, List.mem_append]
    tauto
  · intro hcs
    rw [mem_findCompletions (wf_mkSyntaxTrie sd) (root_mkSyntaxTrie sd)]
    simp only [mkSyntaxTrie, hcs, Bool.false_eq_true, if_false]
    rw [hasWord_pushAll, hasWord_pushAll, hasWord_pushAll, hasWord_pushAll,
      hasWord_pushAll, hasWord_pushAll]
    simp only [hasWord_defaultT, Bool.false_eq_true, or_false, List.mem_append,
      List.map_append]
    tauto

theorem mkSyntaxTrie_indexes_witness :
    (['a'] ∈ (mkSyntaxTrie ⟨[['A']], [], [], false⟩).findCompletions [] ↔
      ['a'] ≠ [] ∧ (([] ++ ['a']) ∈ [['A']] ++ [] ++ [] ∨
        ([] ++ ['a']) ∈ ([['A']] ++ [] ++ ([] : List Word)).map toLowercase)) ∧
    (['A'] ∈ (mkSyntaxTrie ⟨[['A']], [], [], true⟩).findCompletions [] ↔
      ['A'] ≠ [] ∧ ([] ++ ['A']) ∈ [['A']] ++ [] ++ ([] : List Word)) :=
  ⟨(mkSyntaxTrie_indexes _ _ _).2 rfl, (mkSyntaxTrie_indexes _ _ _).1 rfl⟩

/-- **C10**: every completion returned for a non-empty prefix is a
non-empty suffix whose concatenation with the prefix is an inserted word;
in particular a stored word equal to the prefix itself never contributes
an (empty) entry to the results. -/
theorem findCompletions_sound (ws : List Word) (p c : Word) (_hp : p ≠ [])
    (h : c ∈ (Trie.fromWords ws).findCompletions p) :
    c ≠ [] ∧ (p ++ c) ∈ ws :=
  mem_findCompletions_fromWords.mp h

theorem findCompletions_sound_witness :
    (['a'] ≠ ([] : Word) ∧ ['b'] ∈ (Trie.fromWords [['a','b']]).findCompletions ['a']) ∧
    (['b'] ≠ ([] : Word) ∧ (['a'] ++ ['b']) ∈ [['a','b']]) :=
  ⟨⟨by decide, by decide⟩, findCompletions_sound [['a','b']] ['a'] ['b'] (by decide) (by decide)⟩

/-- **C5** (counterexample): with the static dictionary `["ab","aa"]` and
prefix `"a"`, `handle_input` assembles the candidate list `["b","a"]` —
the static sub-list is not in ascending lexicographic order (the trie's
traversal order depends on insertion history, and `handle_input` reverses
it). -/
theorem handleInput_order_cex :
    (handleInput ⟨['a'], 0, none, Trie.fromWords [['a','b'],['a','a']], none, 0, []⟩
        none).1.completions = [['b'],['a']] ∧
    ascendingB [['b'],['a']] = false := by
  decide

/-- **C5** (amended): whenever `handle_input` assembles candidates (its
prefix non-empty and the cursor not dismissed), the resulting list is the
reversed static-trie results followed by the reversed dynamic-trie
results — static candidates always precede dynamic ones, but each
sub-list is in the trie's (insertion-history-dependent) traversal order,
not necessarily ascending. -/
theorem handleInput_concat_static_dynamic (s : Completer) (k : Option KeyInput)
    (h1 : s.pfx ≠ []) (h2 : s.ignore_cursor ≠ some s.cursor) :
    (handleInput s k).1.completions =
      (s.trie_static.findCompletions s.pfx).reverse ++
        ((s.trie_user.map (fun t => t.findCompletions s.pfx)).getD []).reverse :=
  handleInput_assembles s k h1 h2

theorem handleInput_concat_witness :
    (handleInput ⟨['a'], 0, none, Trie.fromWords [['a','b']], none, 0, []⟩
        none).1.completions =
      ((Trie.fromWords [['a','b']]).findCompletions ['a']).reverse ++
        (((none : Option Trie).map (fun t => t.findCompletions ['a'])).getD []).reverse :=
  handleInput_concat_static_dynamic _ none (by decide) (by decide)

/-- **C6**: when Tab fires with a non-empty prefix, no dismissal at the
cursor, and the selection index within the assembled candidate list, the
emitted paste text is exactly the selected candidate entry, which is the
non-empty suffix beyond the prefix of a word stored in the static or the
dynamic trie; the `Completer` state carries no text buffer — the edit is
delegated as an `Event::Paste`. -/
theorem tab_accept_emits_suffix (s : Completer)
    (h1 : s.pfx ≠ []) (h2 : s.ignore_cursor ≠ some s.cursor)
    (hwfS : s.trie_static.wf = true) (hrS : s.trie_static.root = ROOT_CHAR)
    (hU : ∀ tu, s.trie_user = some tu → tu.wf = true ∧ tu.root = ROOT_CHAR)
    (hv : s.variant_id < (assembleCompletions s).length) :
    (handleInput s (some .tab)).2 = some ((assembleCompletions s).getD s.variant_id []) ∧
    ∃ w : Word, w = s.pfx ++ (assembleCompletions s).getD s.variant_id [] ∧
      (assembleCompletions s).getD s.variant_id [] ≠ [] ∧
      (w ∈ s.trie_static.words ∨ ∃ tu, s.trie_user = some tu ∧ w ∈ tu.words) := by
  have hcs : assembleCompletions s ≠ [] := by
    intro hnil; rw [hnil] at hv; simp at hv
  constructor
  · simp only [handleInput, if_neg h1, if_neg h2, if_neg hcs]
  · have hg : (assembleCompletions s).getD s.variant_id [] =
        (assembleCompletions s).get ⟨s.variant_id, hv⟩ := by
      simp [List.getD_eq_getElem?_getD, List.getElem?_eq_getElem hv, List.get_eq_getElem]
    have hmem : (assembleCompletions s).getD s.variant_id [] ∈ assembleCompletions s := by
      rw [hg]; exact List.get_mem _ _ _
    rcases List.mem_append.mp hmem with hstat | huser
    · have h3 := (mem_findCompletions hwfS hrS).mp (List.mem_reverse.mp hstat)
      exact ⟨_, rfl, h3.1, Or.inl (mem_words.mpr ⟨by simp [h1], h3.2⟩)⟩
    · cases hu : s.trie_user with
      | none => rw [hu] at huser; simp at huser
      | some tu =>
          rw [hu] at huser
          simp only [Option.map_some', Option.getD_some] at huser
          have h3 := (mem_findCompletions (hU tu hu).1 (hU tu hu).2).mp
            (List.mem_reverse.mp huser)
          exact ⟨_, rfl, h3.1, Or.inr ⟨tu, rfl, mem_words.mpr ⟨by simp [h1], h3.2⟩⟩⟩

theorem tab_accept_emits_suffix_witness :
    0 < (assembleCompletions ⟨['a'], 0, none, Trie.fromWords [['a','b']],
          some (Trie.fromWords [['a','c']]), 0, []⟩).length ∧
    (handleInput ⟨['a'], 0, none, Trie.fromWords [['a','b']],
          some (Trie.fromWords [['a','c']]), 0, []⟩ (some .tab)).2 = some ['b'] :=
  ⟨by decide, by
    have h := (tab_accept_emits_suffix
      ⟨['a'], 0, none, Trie.fromWords [['a','b']], some (Trie.fromWords [['a','c']]), 0, []⟩
      (by decide) (by decide) (by decide) (by decide)
      (fun tu htu => by cases htu; exact ⟨by decide, by decide⟩)
      (by decide)).1
    rw [h]; decide⟩

/-- **C7**: whenever the observed cursor differs from the stored one,
`Completer::show` resets the session before computing the new prefix: the
resulting state has `variant_id = 0`, a cleared `ignore_cursor`, the new
cursor, and a prefix recomputed purely from the text and cursor range —
independent of the previous prefix. -/
theorem cursor_change_resets (s : Completer) (changed : Bool) (harvested : List Word)
    (text : Word) (rng : CursorRange) (wordStart : Nat)
    (h : rng.primary ≠ s.cursor) :
    (showUpdate s changed harvested text (some rng) wordStart).1.variant_id = 0 ∧
    (showUpdate s changed harvested text (some rng) wordStart).1.ignore_cursor = none ∧
    (showUpdate s changed harvested text (some rng) wordStart).1.cursor = rng.primary ∧
    (showUpdate s changed harvested text (some rng) wordStart).1.pfx =
      extractPfx text rng wordStart := by
  have hne : (updateUserTrie s changed harvested).cursor ≠ rng.primary := by
    rw [updateUserTrie_cursor]
    exact fun hh => h hh.symm
  simp only [showUpdate]
  rw [if_pos hne, if_neg (by simp)]
  exact ⟨rfl, rfl, rfl, rfl⟩

theorem cursor_change_resets_witness :
    (1 : Nat) ≠ 0 ∧
    (showUpdate ⟨['x'], 0, some 0, Trie.defaultT, none, 5, [['y']]⟩ false [] []
        (some ⟨1, 1⟩) 0).1.variant_id = 0 ∧
    (showUpdate ⟨['x'], 0, some 0, Trie.defaultT, none, 5, [['y']]⟩ false [] []
        (some ⟨1, 1⟩) 0).1.ignore_cursor = none ∧
    (showUpdate ⟨['x'], 0, some 0, Trie.defaultT, none, 5, [['y']]⟩ false [] []
        (some ⟨1, 1⟩) 0).1.cursor = 1 ∧
    (showUpdate ⟨['x'], 0, some 0, Trie.defaultT, none, 5, [['y']]⟩ false [] []
        (some ⟨1, 1⟩) 0).1.pfx = extractPfx [] ⟨1, 1⟩ 0 := by
  have h := cursor_change_resets ⟨['x'], 0, some 0, Trie.defaultT, none, 5, [['y']]⟩
    false [] [] ⟨1, 1⟩ 0 (by decide)
  exact ⟨by decide, h.1, h.2.1, h.2.2.1, h.2.2.2⟩

/-- **C8**: Escape records the current cursor index in `ignore_cursor`;
while the cursor index equals `ignore_cursor`, `handle_input` is inert and
`show` never displays the popup; any cursor change clears `ignore_cursor`;
and with `ignore_cursor` cleared the popup is governed only by the fresh
prefix and the candidate list, so returning to the dismissed index does
not re-suppress. -/
theorem dismiss_suppress_clear :
    (∀ s : Completer, s.pfx ≠ [] → s.ignore_cursor ≠ some s.cursor →
      assembleCompletions s ≠ [] →
      (handleInput s (some .escape)).1.ignore_cursor = some s.cursor) ∧
    (∀ (s : Completer) (k : Option KeyInput), s.ignore_cursor = some s.cursor →
      handleInput s k = (s, none)) ∧
    (∀ (s : Completer) (changed : Bool) (harvested : List Word) (text : Word)
      (rng : CursorRange) (wordStart : Nat),
      s.ignore_cursor = some s.cursor → rng.primary = s.cursor →
      (showUpdate s changed harvested text (some rng) wordStart).2 = false) ∧
    (∀ (s : Completer) (changed : Bool) (harvested : List Word) (text : Word)
      (rng : CursorRange) (wordStart : Nat), rng.primary ≠ s.cursor →
      (showUpdate s changed harvested text (some rng) wordStart).1.ignore_cursor = none) ∧
    (∀ (s : Completer) (changed : Bool) (harvested : List Word) (text : Word)
      (rng : CursorRange) (wordStart : Nat), s.ignore_cursor = none →
      (showUpdate s changed harvested text (some rng) wordStart).2 =
        !(decide (extractPfx text rng wordStart = []) ||
          decide (s.completions = []))) := by
  refine ⟨?_, ?_, ?_, ?_, ?_⟩
  · intro s h1 h2 hcs
    simp only [handleInput, if_neg h1, if_neg h2, if_neg hcs]
  · intro s k h
    by_cases h1 : s.pfx = []
    · rw [handleInput, if_pos h1]
    · rw [handleInput, if_neg h1, if_pos h]
  · intro s changed harvested text rng wordStart hig hcur
    have hnc : ¬((updateUserTrie s changed harvested).cursor ≠ rng.primary) := by
      rw [updateUserTrie_cursor]
      exact fun hh => hh hcur.symm
    simp only [showUpdate]
    rw [if_neg hnc,
      if_pos (by rw [updateUserTrie_ignore, updateUserTrie_cursor]; exact hig)]
  · intro s changed harvested text rng wordStart h
    have hne : (updateUserTrie s changed harvested).cursor ≠ rng.primary := by
      rw [updateUserTrie_cursor]
      exact fun hh => h hh.symm
    simp only [showUpdate]
    rw [if_pos hne, if_neg (by simp)]
  · intro s changed harvested text rng wordStart hig
    simp only [showUpdate]
    by_cases hne : (updateUserTrie s changed harvested).cursor ≠ rng.primary
    · rw [if_pos hne, if_neg (by simp)]
      simp only [updateUserTrie_completions]
    · rw [if_neg hne,
        if_neg (by rw [updateUserTrie_ignore, hig]; exact fun hh => Option.noConfusion hh)]
      simp only [updateUserTrie_completions, updateUserTrie_pfx]

theorem dismiss_suppress_clear_witness :
    (handleInput ⟨['a'], 3, none, Trie.fromWords [['a','b']], none, 0, []⟩
        (some .escape)).1.ignore_cursor = some 3 ∧
    handleInput ⟨['a'], 3, some 3, Trie.defaultT, none, 0, []⟩ none =
      (⟨['a'], 3, some 3, Trie.defaultT, none, 0, []⟩, none) ∧
    (showUpdate ⟨['a'], 3, some 3, Trie.defaultT, none, 0, []⟩ false [] []
        (some ⟨3, 3⟩) 0).2 = false ∧
    (showUpdate ⟨['a'], 3, some 3, Trie.defaultT, none, 0, []⟩ false [] []
        (some ⟨4, 4⟩) 0).1.ignore_cursor = none ∧
    (showUpdate ⟨[], 3, none, Trie.defaultT, none, 0, [['q']]⟩ false [] ['a']
        (some ⟨0, 0⟩) 0).2 =
      !(decide (extractPfx ['a'] ⟨0, 0⟩ 0 = []) ||
        decide (([['q']] : List Word) = [])) :=
  ⟨dismiss_suppress_clear.1 _ (by decide) (by decide) (by decide),
   dismiss_suppress_clear.2.1 _ none rfl,
   dismiss_suppress_clear.2.2.1 _ false [] [] ⟨3, 3⟩ 0 rfl rfl,
   dismiss_suppress_clear.2.2.2.1 _ false [] [] ⟨4, 4⟩ 0 (by decide),
   dismiss_suppress_clear.2.2.2.2 _ false [] ['a'] ⟨0, 0⟩ 0 rfl⟩

/-- **C9** (counterexample): an out-of-bounds cursor (index 10 in the
3-character text `"foo"`) is not treated as "no active prefix": the
character read yields `None` (which *allows* completion), the slice clamps
to the text end, and the computed prefix is the trailing identifier run
`"foo"`; with a stale non-empty candidate list the popup is even shown. -/
theorem oob_cursor_cex :
    (['f','o','o'] : Word).length < 10 ∧
    (showUpdate ⟨[], 10, none, Trie.defaultT, none, 0, [['x']]⟩ false []
        ['f','o','o'] (some ⟨10, 10⟩) 0).1.pfx = ['f','o','o'] ∧
    (showUpdate ⟨[], 10, none, Trie.defaultT, none, 0, [['x']]⟩ false []
        ['f','o','o'] (some ⟨10, 10⟩) 0).2 = true := by
  decide

/-- **C9** (amended): `Completer::show` never faults on an out-of-bounds
cursor — reading the character at the cursor is total (`None` beyond the
end, treated as an allowing boundary) and the prefix slice clamps to the
text end — but the outcome is not Idle: the prefix becomes the
identifier-stripped tail of the clamped slice from the word start, which
may be non-empty. -/
theorem oob_cursor_total (text : Word) (rng : CursorRange) (wordStart : Nat)
    (h : text.length ≤ rng.primary) :
    extractPfx text rng wordStart = rsplitIdentTail (text.drop wordStart) := by
  unfold extractPfx
  have hget : text.get? rng.primary = none := List.get?_eq_none.mpr h
  rw [hget]
  simp only [Bool.true_or, if_true, charRange, List.take_of_length_le h]

theorem oob_cursor_total_witness :
    (['a'] : Word).length ≤ 5 ∧
    extractPfx ['a'] ⟨5, 5⟩ 0 = rsplitIdentTail ((['a'] : Word).drop 0) :=
  ⟨by decide, oob_cursor_total ['a'] ⟨5, 5⟩ 0 (by decide)⟩
